import Mathlib

set_option maxRecDepth 100000

/-!
Shallow embedding of `git_hash_chooser` (src/main.rs) and proofs about it.

Strings are modelled as `List Char` (`Str`); bytes as `Nat` (UTF-8 encoded,
matching Rust `str::as_bytes` / `str::len`).  Machine integers: every Rust
`i64` operation of the engine carries an explicit two's-complement reduction
(`i64wrap`, the release-build wrap-around semantics; a debug build panics at
the same spots) — the timestamp-plus-offset additions (main.rs:119-123), the
minute-to-second multiplications (main.rs:89-90) and the `possibilities`
count (main.rs:92) all wrap exactly where the source's `i64` arithmetic
does, and the `u64` power `16^L` (main.rs:93) is reduced mod `2^64`.
The `rayon` search is modelled at two levels: `find_beautiful_git_hash`
fixes the sequential enumeration order (outer committer row ascending,
inner author offset ascending — one admissible schedule, the spec's
deterministic sequential mode), while the relation `find_possible` captures
every outcome `find_map_any` may surface — any row's result can win the
race, as spec §5 leaves the winner unspecified.  Cross-row ordering facts
(claim C3) are proved over `find_possible` and therefore hold for every
admissible winner; per-row facts are proved of the deterministic engine and
transfer to any winner because they hold row by row.  The Rust panic that
`commit_line_to_format` hits on an `author`/`committer` line with fewer than
two tokens is modelled as `Option.none` (surfaced as a distinguished error).
-/

abbrev Str := List Char

/-! ## Whitespace splitting (Rust `str::split_whitespace`) -/

/-- The Unicode `White_Space` code points, the set Rust
`char::is_whitespace` tests. -/
def isRustWhitespace (c : Char) : Bool :=
  [9, 10, 11, 12, 13, 32, 133, 160, 5760, 8192, 8193, 8194, 8195, 8196, 8197,
   8198, 8199, 8200, 8201, 8202, 8232, 8233, 8239, 8287, 12288].contains c.toNat

def splitWsAux : Str → Str → List Str
  | [], acc => if acc = [] then [] else [acc.reverse]
  | c :: rest, acc =>
    if isRustWhitespace c then
      if acc = [] then splitWsAux rest []
      else acc.reverse :: splitWsAux rest []
    else splitWsAux rest (c :: acc)

/-- Rust `split_whitespace`: maximal runs of non-whitespace characters;
leading/trailing/repeated whitespace produces no empty items. -/
def splitWhitespace (s : Str) : List Str := splitWsAux s []

/-- Rust `str::split("\n")`: split on every newline, keeping empty pieces
(so a trailing newline yields a final empty piece). -/
def splitOnNl : Str → List Str
  | [] => [[]]
  | c :: rest =>
    match splitOnNl rest with
    | [] => [[]]
    | l :: ls => if c = '\n' then [] :: l :: ls else (c :: l) :: ls

/-- `Vec::join(sep)`. -/
def joinSep (sep : Str) : List Str → Str
  | [] => []
  | [x] => x
  | x :: y :: rest => x ++ sep ++ joinSep sep (y :: rest)

/-! ## Rust `i64::from_str` (used via `parse().unwrap_or(0)`) -/

def decDigit? (c : Char) : Option Nat :=
  if 48 ≤ c.toNat ∧ c.toNat ≤ 57 then some (c.toNat - 48) else none

def digitsValAux : Str → Nat → Option Nat
  | [], acc => some acc
  | c :: rest, acc =>
    match decDigit? c with
    | some d => digitsValAux rest (acc * 10 + d)
    | none => none

def digitsVal : Str → Option Nat
  | [] => none
  | s => digitsValAux s 0

/-- Rust `i64::from_str`: optional sign, one or more ASCII digits, in-range. -/
def parseI64 (s : Str) : Option Int :=
  match s with
  | '+' :: rest =>
    (digitsVal rest).bind (fun n =>
      if n ≤ 9223372036854775807 then some ((n : Int)) else none)
  | '-' :: rest =>
    (digitsVal rest).bind (fun n =>
      if n ≤ 9223372036854775808 then some (-((n : Int))) else none)
  | _ =>
    (digitsVal s).bind (fun n =>
      if n ≤ 9223372036854775807 then some ((n : Int)) else none)

/-! ## Rust `str::replace` -/

def replaceFuel (pat rep : Str) : Nat → Str → Str
  | 0, s => s
  | _, [] => []
  | fuel + 1, c :: rest =>
    if pat.isPrefixOf (c :: rest) then
      rep ++ replaceFuel pat rep fuel ((c :: rest).drop pat.length)
    else c :: replaceFuel pat rep fuel rest

/-- Rust `str::replace`: replace every non-overlapping occurrence of `pat`,
scanning left to right.  (For the empty pattern Rust matches at every char
boundary; the engine only ever uses the two fixed non-empty placeholders.) -/
def rustReplace (s pat rep : Str) : Str :=
  if pat = [] then rep ++ s.flatMap (fun c => c :: rep)
  else replaceFuel pat rep s.length s

/-! ## UTF-8 (Rust `str::as_bytes` / `str::len`) -/

def utf8EncodeChar (n : Nat) : List Nat :=
  if n < 128 then [n]
  else if n < 2048 then [192 + n / 64, 128 + n % 64]
  else if n < 65536 then [224 + n / 4096, 128 + n / 64 % 64, 128 + n % 64]
  else [240 + n / 262144, 128 + n / 4096 % 64, 128 + n / 64 % 64, 128 + n % 64]

/-- The UTF-8 bytes of a string, as `Nat`s below 256. -/
def strBytes (s : Str) : List Nat := s.flatMap (fun c => utf8EncodeChar c.toNat)

/-! ## SHA-1 (the `sha1` crate's `Sha1::digest`), over `Nat` with explicit
mod-2^32 arithmetic -/

def w32 : Nat := 4294967296

def rotl (n x : Nat) : Nat :=
  ((x * 2 ^ n) % w32) ||| (x / 2 ^ (32 - n))

def notw (x : Nat) : Nat := 4294967295 - x

def sha1K (t : Nat) : Nat :=
  if t < 20 then 1518500249
  else if t < 40 then 1859775393
  else if t < 60 then 2400959708
  else 3395469782

def sha1F (t b c d : Nat) : Nat :=
  if t < 20 then (b &&& c) ||| (notw b &&& d)
  else if t < 40 then b ^^^ c ^^^ d
  else if t < 60 then (b &&& c) ||| (b &&& d) ||| (c &&& d)
  else b ^^^ c ^^^ d

/-- Merkle–Damgård padding: `0x80`, zeros to 56 mod 64, 8-byte big-endian
bit length. -/
def sha1Pad (msg : List Nat) : List Nat :=
  msg ++ [128] ++ List.replicate ((119 - msg.length % 64) % 64) 0
    ++ (List.range 8).map (fun i => (8 * msg.length) % 2 ^ 64 / 2 ^ (8 * (7 - i)) % 256)

def chunks64Aux : Nat → List Nat → List (List Nat)
  | 0, _ => []
  | _, [] => []
  | fuel + 1, l => l.take 64 :: chunks64Aux fuel (l.drop 64)

def chunks64 (l : List Nat) : List (List Nat) :=
  chunks64Aux l.length l

def bytesToWords (l : List Nat) : List Nat :=
  (List.range 16).map (fun i =>
    l.getD (4 * i) 0 * 16777216 + l.getD (4 * i + 1) 0 * 65536
      + l.getD (4 * i + 2) 0 * 256 + l.getD (4 * i + 3) 0)

/-- Extend the 16 message words to the 80-word schedule:
`w[t] = rotl1 (w[t-3] xor w[t-8] xor w[t-14] xor w[t-16])`. -/
def sha1Schedule (ws : List Nat) : List Nat :=
  (List.range 64).foldl
    (fun w _ =>
      w ++ [rotl 1 (w.getD (w.length - 3) 0 ^^^ w.getD (w.length - 8) 0
          ^^^ w.getD (w.length - 14) 0 ^^^ w.getD (w.length - 16) 0)])
    ws

def sha1Round (w : List Nat) (t : Nat) (st : Nat × Nat × Nat × Nat × Nat) :
    Nat × Nat × Nat × Nat × Nat :=
  match st with
  | (a, b, c, d, e) =>
    ((rotl 5 a + sha1F t b c d + e + sha1K t + w.getD t 0) % w32, a, rotl 30 b, c, d)

def sha1Block (st : Nat × Nat × Nat × Nat × Nat) (block : List Nat) :
    Nat × Nat × Nat × Nat × Nat :=
  match st with
  | (h0, h1, h2, h3, h4) =>
    let w := sha1Schedule (bytesToWords block)
    match (List.range 80).foldl (fun s t => sha1Round w t s) (h0, h1, h2, h3, h4) with
    | (a, b, c, d, e) =>
      ((h0 + a) % w32, (h1 + b) % w32, (h2 + c) % w32, (h3 + d) % w32, (h4 + e) % w32)

/-- SHA-1 digest as five 32-bit words. -/
def sha1 (msg : List Nat) : List Nat :=
  match (chunks64 (sha1Pad msg)).foldl sha1Block
      (1732584193, 4023233417, 2562383102, 271733878, 3285377520) with
  | (h0, h1, h2, h3, h4) => [h0, h1, h2, h3, h4]

def hexDigitChar (n : Nat) : Char :=
  if n < 10 then Char.ofNat (48 + n) else Char.ofNat (87 + n)

/-- Fixed-width 8-digit lowercase hex of a 32-bit word, most significant
digit first (so the 5 words render exactly as the 20 digest bytes do under
Rust `format!("{:x}", digest)`). -/
def hex8 (v : Nat) : Str :=
  (List.range 8).map (fun i => hexDigitChar (v / 16 ^ (7 - i) % 16))

def sha1Hex (msg : List Nat) : Str :=
  (sha1 msg).flatMap hex8

/-- `git_commit_hash` (main.rs:31): SHA-1 of
`format!("commit {}\x00{}", commit.len(), commit)`, lowercase hex. -/
def git_commit_hash (commit : Str) : Str :=
  let object : Str :=
    ("commit ").data ++ (Nat.repr (strBytes commit).length).data
      ++ [Char.ofNat 0] ++ commit
  sha1Hex (strBytes object)

/-! ## Template builder (`commit_line_to_format` / `commit_to_format`) -/

structure CommitValues where
  author_date_timestamp : Int
  author_date_tz : Str
  committer_date_timestamp : Int
  committer_date_tz : Str
deriving DecidableEq

def initVals : CommitValues := ⟨0, [], 0, []⟩

def authorPh : Str := ("%(author_date_timestamp)i").data
def committerPh : Str := ("%(committer_date_timestamp)i").data

/-- `commit_line_to_format` (main.rs:37): tokenize the line on whitespace;
on first token `author`/`committer` record the second-to-last token as the
timestamp (0 on parse failure) and the last as the timezone and overwrite
the second-to-last token with the placeholder; rejoin the tokens with single
spaces.  `none` models the Rust index-out-of-bounds panic when such a line
has fewer than two tokens (`format_words[len - 2]` with `len = 1`). -/
def commit_line_to_format (line : Str) (vals : CommitValues) :
    Option (Str × CommitValues) :=
  let ws := splitWhitespace line
  match ws.head? with
  | some w =>
    if w = ("author").data then
      if ws.length < 2 then none
      else
        some (joinSep ([' ']) (ws.set (ws.length - 2) authorPh),
          { vals with
            author_date_timestamp := (parseI64 (ws.getD (ws.length - 2) [])).getD 0,
            author_date_tz := ws.getLast?.getD [] })
    else if w = ("committer").data then
      if ws.length < 2 then none
      else
        some (joinSep ([' ']) (ws.set (ws.length - 2) committerPh),
          { vals with
            committer_date_timestamp := (parseI64 (ws.getD (ws.length - 2) [])).getD 0,
            committer_date_tz := ws.getLast?.getD [] })
    else some (joinSep ([' ']) ws, vals)
  | none => some (joinSep ([' ']) ws, vals)

def commit_lines_to_format : List Str → CommitValues → Option (List Str × CommitValues)
  | [], vals => some ([], vals)
  | l :: ls, vals =>
    match commit_line_to_format l vals with
    | none => none
    | some (l2, vals2) =>
      match commit_lines_to_format ls vals2 with
      | none => none
      | some (ls2, vals3) => some (l2 :: ls2, vals3)

/-- `commit_to_format` (main.rs:61): split on `"\n"`, format each line in
order threading the mutable `CommitValues`, rejoin with `"\n"`. -/
def commit_to_format (commit : Str) : Option (Str × CommitValues) :=
  match commit_lines_to_format (splitOnNl commit) initVals with
  | none => none
  | some (ls, vals) => some (joinSep (['\n']) ls, vals)

/-! ## 64-bit machine arithmetic (Rust release-build semantics) -/

/-- Reduce an integer to the `i64` range `[-2^63, 2^63)`: the value a Rust
release build computes where an `i64` operation overflows (a debug build
panics there instead). -/
def i64wrap (x : Int) : Int :=
  (x + 9223372036854775808) % 18446744073709551616 - 9223372036854775808

/-- Rust `i64` addition (wrapping in release). -/
def i64add (a b : Int) : Int := i64wrap (a + b)

/-- Rust `i64` subtraction (wrapping in release). -/
def i64sub (a b : Int) : Int := i64wrap (a - b)

/-- Rust `i64` multiplication (wrapping in release). -/
def i64mul (a b : Int) : Int := i64wrap (a * b)

/-- Rust `i64` division: truncation toward zero.  (Its only overflow case,
`i64::MIN / -1`, is unreachable here — the engine only ever divides by 2.) -/
def i64div (a b : Int) : Int := Int.tdiv a b

/-! ## The search engine (`find_beautiful_git_hash`) -/

/-- The inclusive integer range `lo..=hi` (empty when `hi < lo`). -/
def intRange (lo hi : Int) : List Int :=
  (List.range (hi + 1 - lo).toNat).map (fun (i : Nat) => lo + (i : Int))

/-- The candidate enumerator: outer committer offset `lo..=hi` ascending,
inner author offset `lo..=committer` ascending; pairs are
`(author_offset, committer_offset)`. -/
def candPairs (lo hi : Int) : List (Int × Int) :=
  (intRange lo hi).flatMap (fun c => (intRange lo c).map (fun a => (a, c)))

def intRepr (i : Int) : Str := (toString i).data

/-- The candidate commit text: both placeholders substituted
(author first, then committer, exactly as the two `.replace` calls run). -/
def candidateCommit (fmt : Str) (ta tc : Int) : Str :=
  rustReplace (rustReplace fmt authorPh (intRepr ta)) committerPh (intRepr tc)

/-- Does the candidate's hash start with the requested prefix? -/
def candidateOk (fmt : Str) (pre : Str) (ta tc : Int) : Bool :=
  pre.isPrefixOf (git_commit_hash (candidateCommit fmt ta tc))

/-- One loop iteration: `some none` is the `(0,0)` no-op short circuit,
`some (some (committer_date, author_date))` the `Found` rendering
`"<epoch> <tz>"` with original timezones, `none` no match. -/
def tryCandidate (fmt : Str) (vals : CommitValues) (pre : Str) (c a : Int) :
    Option (Option (Str × Str)) :=
  let ta := i64add vals.author_date_timestamp a
  let tc := i64add vals.committer_date_timestamp c
  if candidateOk fmt pre ta tc then
    if a = 0 ∧ c = 0 then some none
    else some (some (intRepr tc ++ [' '] ++ vals.committer_date_tz,
                     intRepr ta ++ [' '] ++ vals.author_date_tz))
  else none

/-- One committer row: author offsets `lo..=c` in order, first hit wins. -/
def rowResult (fmt : Str) (vals : CommitValues) (pre : Str) (lo c : Int) :
    Option (Option (Str × Str)) :=
  (intRange lo c).findSome? (fun a => tryCandidate fmt vals pre c a)

/-- `iter_count` of a row (main.rs:115): `committer_offset - lower_bound + 1`
cast to `usize`.  For every row the engine can enumerate (`lo ≤ c`, with the
window's row count below `2^63`) the `i64` subtraction and the cast are
exact, so no wrap is modelled here. -/
def rowCount (lo c : Int) : Nat := (c - lo + 1).toNat

/-- Sequential model of the row loop with the progress counter: a row that
yields a result stops the search and does NOT advance the counter (the Rust
closure returns before `shared_bar.update`); a completed match-free row adds
its `iter_count` once. -/
def searchBarAux {β : Type} (f : Int → Option β) (cnt : Int → Nat) :
    List Int → Option β × Nat
  | [] => (none, 0)
  | c :: rest =>
    match f c with
    | some r => (some r, 0)
    | none =>
      let p := searchBarAux f cnt rest
      (p.1, cnt c + p.2)

def searchRows (fmt : Str) (vals : CommitValues) (pre : Str) (lo hi : Int) :
    Option (Option (Str × Str)) × Nat :=
  searchBarAux (rowResult fmt vals pre lo) (rowCount lo) (intRange lo hi)

inductive SearchOutcome where
  | ok : Option (Str × Str) → SearchOutcome
  | err : Str → SearchOutcome
deriving DecidableEq

def allowed_prefix_chars : Str := ("0123456789abcdef").data

def invalidPrefixMsg : Str := ("Invalid prefix! Only lower case hex digits are allowed").data
def exhaustedMsg : Str := ("Unable to find beautiful hash!").data
def panicMsg : Str := ("panicked at index out of bounds").data
def rangeMsg : Str := ("min must be smaller than max").data

/-- `find_beautiful_git_hash` (main.rs:77): validate the prefix characters,
build the template, search rows `min*60..=max*60` (the bounds are the `i64`
products, wrapping like the source's); `ok none` is the `(0,0)` no-op
outcome, `ok (some (committer_date, author_date))` a proposal,
`err exhaustedMsg` exhaustion.  (`err panicMsg` models the template-builder
panic; the function performs no range validation of its own.) -/
def find_beautiful_git_hash (commit pre : Str) (min_minutes max_minutes : Int) :
    SearchOutcome :=
  if pre.all (fun c => allowed_prefix_chars.contains c) then
    match commit_to_format commit with
    | none => .err panicMsg
    | some (fmt, vals) =>
      match (searchRows fmt vals pre (i64mul min_minutes 60) (i64mul max_minutes 60)).1 with
      | some r => .ok r
      | none => .err exhaustedMsg
  else .err invalidPrefixMsg

/-- `possibilities` (main.rs:89-92): `(bound+1)*(bound+2)/2` with
`bound = max*60 - min*60`, every operation in wrapping `i64` arithmetic as
in the source (for windows up to about 5.06e7 minutes nothing wraps and the
value is the exact triangular number; beyond that the `i64` product wraps in
release and panics in debug). -/
def possibilities (min_minutes max_minutes : Int) : Int :=
  let lower := i64mul min_minutes 60
  let upper := i64mul max_minutes 60
  let bound := i64sub upper lower
  i64div (i64mul (i64add bound 1) (i64add bound 2)) 2

/-- `hash_count` (main.rs:93): `(16 : u64).pow(prefix.len())`, with the u64
wrap-around explicit. -/
def hash_count (pre : Str) : Nat := 16 ^ pre.length % 18446744073709551616

/-- The reported probability `possibilities / hash_count`, modelled exactly
over `ℚ` (the implementation rounds this value to an `f64` for display). -/
def probabilityRat (min_minutes max_minutes : Int) (pre : Str) : ℚ :=
  (possibilities min_minutes max_minutes : ℚ) / ((hash_count pre : ℚ))

/-- `main` (main.rs:215): reject `min > max` before anything else runs, then
search the given HEAD commit text (repository reads are external input). -/
def run_main (commit pre : Str) (minArg maxArg : Int) : SearchOutcome :=
  if minArg > maxArg then .err rangeMsg
  else find_beautiful_git_hash commit pre minArg maxArg

/-- The set of outcomes the parallel engine may surface.  Validation and
template building are deterministic; `rayon`'s `find_map_any` then returns
the result of ANY committer row whose (sequential) inner loop produced one
— which row wins a race between qualifying rows is unspecified (spec §5) —
and reports exhaustion exactly when no row produces a result.
`find_beautiful_git_hash` realizes the schedule that lets the earliest row
win; `find_is_possible` below records that it is one admissible outcome. -/
def find_possible (commit pre : Str) (min_minutes max_minutes : Int)
    (out : SearchOutcome) : Prop :=
  (pre.all (fun c => allowed_prefix_chars.contains c) = false ∧
    out = .err invalidPrefixMsg) ∨
  (pre.all (fun c => allowed_prefix_chars.contains c) = true ∧
    commit_to_format commit = none ∧ out = .err panicMsg) ∨
  (pre.all (fun c => allowed_prefix_chars.contains c) = true ∧
    ∃ fmt vals, commit_to_format commit = some (fmt, vals) ∧
      ((∃ c ∈ intRange (i64mul min_minutes 60) (i64mul max_minutes 60), ∃ r,
          rowResult fmt vals pre (i64mul min_minutes 60) c = some r ∧ out = .ok r) ∨
       ((∀ c ∈ intRange (i64mul min_minutes 60) (i64mul max_minutes 60),
          rowResult fmt vals pre (i64mul min_minutes 60) c = none) ∧
        out = .err exhaustedMsg)))

/-! ## Spec-side definition (for the refinement claim C5) -/

/-- Modelled from the spec §4.2 wording: the digest input is
`"<object-type> <byte-length-of-text>\0<text>"` — the ASCII bytes of
`commit `, the decimal byte length, a NUL byte, then the text's bytes. -/
def gitObjectBytes (t : Str) : List Nat :=
  strBytes (("commit ").data) ++ strBytes ((Nat.repr (strBytes t).length).data)
    ++ [0] ++ strBytes t


/-! ## Concrete fixtures used by witnesses and counterexamples -/

/-- Concrete commit fixture: an ordinary commit, baseline timestamps
1000000000, timezone `+0000`. -/
def cInit : Str :=
  ("tree 4b825dc642cb6eb9a060e54bf8d69288fbee4904\nauthor Alice <alice@example.com> 1000000000 +0000\ncommitter Alice <alice@example.com> 1000000000 +0000\n\nInitial commit\n").data

def cInitFmt : Str := ((commit_to_format cInit).getD ([], initVals)).1

def cInitVals : CommitValues := ((commit_to_format cInit).getD ([], initVals)).2

/-- Concrete commit fixture chosen so that the hashes at offsets `(0,0)`
(`3efa9e30…`) and at offsets `(-60,-60)` (`37ef1243…`) both start with `3`. -/
def cX : Str :=
  ("tree 4b825dc642cb6eb9a060e54bf8d69288fbee4904\nauthor Alice <alice@example.com> 1000000000 +0000\ncommitter Alice <alice@example.com> 1000000000 +0000\n\nInitial commit 21\n").data

def cXFmt : Str := ((commit_to_format cX).getD ([], initVals)).1

def cXVals : CommitValues := ((commit_to_format cX).getD ([], initVals)).2

/-- A commit whose message body contains a double space. -/
def cWs : Str := ("tree 123\n\nhello  world\n").data

/-- A commit whose (parseable) timestamps sit 8 below `i64::MAX`, so adding
the offset 60 wraps: `i64add 9223372036854775800 60 = -9223372036854775756`.
The candidate text rendered from the wrapped values hashes to
`b0f4559124…`. -/
def cBig : Str :=
  ("tree 4b825dc642cb6eb9a060e54bf8d69288fbee4904\nauthor Alice <alice@example.com> 9223372036854775800 +0000\ncommitter Alice <alice@example.com> 9223372036854775800 +0000\n\nBig bang\n").data

def cBigVals : CommitValues := ((commit_to_format cBig).getD ([], initVals)).2

/-! ## SHA-1 sanity checks (FIPS 180 test vectors) -/

example : sha1Hex (strBytes (("abc").data)) =
    ("a9993e364706816aba3e25717850c26c9cd0d89d").data := by decide

example : sha1Hex [] = ("da39a3ee5e6b4b0d3255bfef95601890afd80709").data := by decide

/-! ## Helper lemmas: ranges, rows, and the search loop -/

theorem mem_intRange {lo hi a : Int} : a ∈ intRange lo hi ↔ lo ≤ a ∧ a ≤ hi := by
  unfold intRange
  simp only [List.mem_map, List.mem_range]
  constructor
  · rintro ⟨i, hi2, rfl⟩; omega
  · rintro ⟨h1, h2⟩; exact ⟨(a - lo).toNat, by omega, by omega⟩

theorem intRange_nil {lo hi : Int} (h : hi < lo) : intRange lo hi = [] := by
  unfold intRange
  have h0 : (hi + 1 - lo).toNat = 0 := by omega
  simp [h0]

theorem intRange_length (lo hi : Int) : (intRange lo hi).length = (hi + 1 - lo).toNat := by
  simp [intRange]

theorem intRange_append {lo m hi : Int} (h1 : lo ≤ m + 1) (h2 : m ≤ hi) :
    intRange lo hi = intRange lo m ++ intRange (m + 1) hi := by
  unfold intRange
  have hn : (hi + 1 - lo).toNat = (m + 1 - lo).toNat + (hi - m).toNat := by omega
  have hn2 : (hi + 1 - (m + 1)).toNat = (hi - m).toNat := by omega
  rw [hn, hn2, List.range_add, List.map_append, List.map_map]
  congr 1
  apply List.map_congr_left
  intro i hi3
  simp only [Function.comp_apply]
  omega

theorem intRange_cons {lo hi : Int} (h : lo ≤ hi) :
    intRange lo hi = lo :: intRange (lo + 1) hi := by
  rw [intRange_append (m := lo) (by omega) h]
  have h1 : (lo + 1 - lo).toNat = 1 := by omega
  unfold intRange
  rw [h1]
  have hr1 : List.range 1 = [0] := rfl
  simp [hr1]

theorem triangular_list (n : Nat) :
    ((List.range n).map (fun i => i + 1)).sum * 2 = n * (n + 1) := by
  induction n with
  | zero => simp
  | succ k ih =>
    rw [List.range_succ, List.map_append, List.sum_append]
    simp only [List.map_cons, List.map_nil, List.sum_cons, List.sum_nil]
    nlinarith [ih]

theorem candPairs_length {lo hi : Int} (h : lo ≤ hi) :
    ((candPairs lo hi).length : Int) * 2 = (hi - lo + 1) * (hi - lo + 2) := by
  unfold candPairs
  rw [List.length_flatMap]
  have hrw : List.map (List.length ∘ fun c => (intRange lo c).map (fun a => (a, c)))
        (intRange lo hi)
      = List.map (fun i => i + 1) (List.range (hi + 1 - lo).toNat) := by
    unfold intRange
    rw [List.map_map]
    apply List.map_congr_left
    intro i hi2
    simp only [Function.comp_apply, List.length_map, List.length_range]
    omega
  rw [hrw]
  have ht := triangular_list (hi + 1 - lo).toNat
  have hN : (((hi + 1 - lo).toNat : Nat) : Int) = hi - lo + 1 := by omega
  have hc : (((List.map (fun i => i + 1) (List.range (hi + 1 - lo).toNat)).sum : Nat) : Int) * 2
      = (((hi + 1 - lo).toNat : Nat) : Int) * ((((hi + 1 - lo).toNat : Nat) : Int) + 1) := by
    exact_mod_cast ht
  rw [hN] at hc
  linarith [hc]

theorem searchBarAux_fst {β : Type} (f : Int → Option β) (cnt : Int → Nat) (l : List Int) :
    (searchBarAux f cnt l).1 = l.findSome? f := by
  induction l with
  | nil => rfl
  | cons c rest ih =>
    unfold searchBarAux
    rw [List.findSome?_cons]
    cases h : f c with
    | some r => simp [h]
    | none => simpa [h] using ih

theorem searchBarAux_snd {β : Type} (f : Int → Option β) (cnt : Int → Nat) (l : List Int) :
    (searchBarAux f cnt l).2
      = ((l.takeWhile (fun c => (f c).isNone)).map cnt).sum := by
  induction l with
  | nil => rfl
  | cons c rest ih =>
    unfold searchBarAux
    rw [List.takeWhile_cons]
    cases h : f c with
    | some r => simp [h]
    | none => simp [h, ih]

theorem i64wrap_eq {x : Int} (h1 : -9223372036854775808 ≤ x)
    (h2 : x ≤ 9223372036854775807) : i64wrap x = x := by
  unfold i64wrap
  omega

theorem tryCandidate_found_inv {fmt : Str} {vals : CommitValues} {pre : Str}
    {c a : Int} {cd ad : Str}
    (htry : tryCandidate fmt vals pre c a = some (some (cd, ad))) :
    ¬(a = 0 ∧ c = 0) ∧
    candidateOk fmt pre (i64add vals.author_date_timestamp a)
      (i64add vals.committer_date_timestamp c) = true ∧
    cd = intRepr (i64add vals.committer_date_timestamp c) ++ [' '] ++ vals.committer_date_tz ∧
    ad = intRepr (i64add vals.author_date_timestamp a) ++ [' '] ++ vals.author_date_tz := by
  unfold tryCandidate at htry
  dsimp only at htry
  split at htry
  · rename_i hok
    split at htry
    · simp at htry
    · rename_i hzero
      have hpair : (intRepr (i64add vals.committer_date_timestamp c) ++ [' '] ++ vals.committer_date_tz,
          intRepr (i64add vals.author_date_timestamp a) ++ [' '] ++ vals.author_date_tz) = (cd, ad) :=
        Option.some.inj (Option.some.inj htry)
      exact ⟨hzero, hok, (congrArg Prod.fst hpair).symm, (congrArg Prod.snd hpair).symm⟩
  · exact Option.noConfusion htry

theorem rowResult_found_inv {fmt : Str} {vals : CommitValues} {pre : Str}
    {lo c : Int} {cd ad : Str}
    (hrow : rowResult fmt vals pre lo c = some (some (cd, ad))) :
    ∃ a : Int, lo ≤ a ∧ a ≤ c ∧ ¬(a = 0 ∧ c = 0) ∧
      candidateOk fmt pre (i64add vals.author_date_timestamp a)
        (i64add vals.committer_date_timestamp c) = true ∧
      cd = intRepr (i64add vals.committer_date_timestamp c) ++ [' '] ++ vals.committer_date_tz ∧
      ad = intRepr (i64add vals.author_date_timestamp a) ++ [' '] ++ vals.author_date_tz := by
  unfold rowResult at hrow
  obtain ⟨a, hamem, htry⟩ := List.exists_of_findSome?_eq_some hrow
  obtain ⟨ha1, ha2⟩ := mem_intRange.mp hamem
  obtain ⟨hz, hok, hcd, had⟩ := tryCandidate_found_inv htry
  exact ⟨a, ha1, ha2, hz, hok, hcd, had⟩

theorem find_found_inv {commit pre : Str} {minm maxm : Int} {fmt : Str}
    {vals : CommitValues} {cd ad : Str}
    (hfmt : commit_to_format commit = some (fmt, vals))
    (hrun : find_beautiful_git_hash commit pre minm maxm = .ok (some (cd, ad))) :
    ∃ a c : Int, i64mul minm 60 ≤ a ∧ a ≤ c ∧ c ≤ i64mul maxm 60 ∧ ¬(a = 0 ∧ c = 0) ∧
      candidateOk fmt pre (i64add vals.author_date_timestamp a)
        (i64add vals.committer_date_timestamp c) = true ∧
      cd = intRepr (i64add vals.committer_date_timestamp c) ++ [' '] ++ vals.committer_date_tz ∧
      ad = intRepr (i64add vals.author_date_timestamp a) ++ [' '] ++ vals.author_date_tz := by
  unfold find_beautiful_git_hash at hrun
  by_cases hv : pre.all (fun c => allowed_prefix_chars.contains c)
  · rw [if_pos hv, hfmt] at hrun
    have hrun2 : (match (searchRows fmt vals pre (i64mul minm 60) (i64mul maxm 60)).1 with
        | some r => SearchOutcome.ok r
        | none => SearchOutcome.err exhaustedMsg) = SearchOutcome.ok (some (cd, ad)) := hrun
    clear hrun
    cases hs : (searchRows fmt vals pre (i64mul minm 60) (i64mul maxm 60)).1 with
    | none => rw [hs] at hrun2; simp at hrun2
    | some r =>
      rw [hs] at hrun2
      have hr : r = some (cd, ad) := by
        cases hrun2
        rfl
      subst hr
      rw [searchRows, searchBarAux_fst] at hs
      obtain ⟨c, hcmem, hrow⟩ := List.exists_of_findSome?_eq_some hs
      obtain ⟨hc1, hc2⟩ := mem_intRange.mp hcmem
      obtain ⟨a, ha1, ha2, hz, hok, hcd, had⟩ := rowResult_found_inv hrow
      exact ⟨a, c, ha1, ha2, hc2, hz, hok, hcd, had⟩
  · rw [if_neg hv] at hrun
    simp at hrun

theorem find_is_possible (commit pre : Str) (minm maxm : Int) :
    find_possible commit pre minm maxm (find_beautiful_git_hash commit pre minm maxm) := by
  by_cases hv : pre.all (fun c => allowed_prefix_chars.contains c)
  · cases hfmt : commit_to_format commit with
    | none =>
      have hval : find_beautiful_git_hash commit pre minm maxm = .err panicMsg := by
        unfold find_beautiful_git_hash
        rw [if_pos hv, hfmt]
      rw [hval]
      exact Or.inr (Or.inl ⟨hv, hfmt, rfl⟩)
    | some q =>
      obtain ⟨fmt, vals⟩ := q
      cases hs : (searchRows fmt vals pre (i64mul minm 60) (i64mul maxm 60)).1 with
      | some r =>
        have hval : find_beautiful_git_hash commit pre minm maxm = .ok r := by
          unfold find_beautiful_git_hash
          rw [if_pos hv, hfmt]
          have hgoal : (match (searchRows fmt vals pre (i64mul minm 60) (i64mul maxm 60)).1 with
              | some r2 => SearchOutcome.ok r2
              | none => SearchOutcome.err exhaustedMsg) = SearchOutcome.ok r := by
            rw [hs]
          exact hgoal
        rw [hval]
        rw [searchRows, searchBarAux_fst] at hs
        obtain ⟨c, hcmem, hrow⟩ := List.exists_of_findSome?_eq_some hs
        exact Or.inr (Or.inr ⟨hv, fmt, vals, hfmt, Or.inl ⟨c, hcmem, r, hrow, rfl⟩⟩)
      | none =>
        have hval : find_beautiful_git_hash commit pre minm maxm = .err exhaustedMsg := by
          unfold find_beautiful_git_hash
          rw [if_pos hv, hfmt]
          have hgoal : (match (searchRows fmt vals pre (i64mul minm 60) (i64mul maxm 60)).1 with
              | some r2 => SearchOutcome.ok r2
              | none => SearchOutcome.err exhaustedMsg) = SearchOutcome.err exhaustedMsg := by
            rw [hs]
          exact hgoal
        rw [hval]
        rw [searchRows, searchBarAux_fst] at hs
        exact Or.inr (Or.inr ⟨hv, fmt, vals, hfmt,
          Or.inr ⟨List.findSome?_eq_none_iff.mp hs, rfl⟩⟩)
  · have hval : find_beautiful_git_hash commit pre minm maxm = .err invalidPrefixMsg := by
      unfold find_beautiful_git_hash
      rw [if_neg hv]
    rw [hval]
    rw [Bool.not_eq_true] at hv
    exact Or.inl ⟨hv, rfl⟩

/-- C1: whenever the search returns `Found (committer_date, author_date)`,
those strings are `"<timestamp> <tz>"` renderings with the original timezone
strings, and substituting the two carried timestamps into the template's two
placeholders and hashing yields a hex digest that starts with the requested
prefix. -/
theorem C1_found_hash_matches {commit pre : Str} {minm maxm : Int} {fmt : Str}
    {vals : CommitValues} {cd ad : Str}
    (hfmt : commit_to_format commit = some (fmt, vals))
    (hrun : find_beautiful_git_hash commit pre minm maxm = .ok (some (cd, ad))) :
    ∃ ta tc : Int,
      ad = intRepr ta ++ [' '] ++ vals.author_date_tz ∧
      cd = intRepr tc ++ [' '] ++ vals.committer_date_tz ∧
      pre.isPrefixOf (git_commit_hash (candidateCommit fmt ta tc)) = true := by
  obtain ⟨a, c, _, _, _, _, hok, hcd, had⟩ := find_found_inv hfmt hrun
  exact ⟨i64add vals.author_date_timestamp a, i64add vals.committer_date_timestamp c, had, hcd, hok⟩

theorem C1_witness :
    ∃ ta tc : Int,
      ("1000000060 +0000").data = intRepr ta ++ [' '] ++ cInitVals.author_date_tz ∧
      ("1000000060 +0000").data = intRepr tc ++ [' '] ++ cInitVals.committer_date_tz ∧
      (("a7").data).isPrefixOf (git_commit_hash (candidateCommit cInitFmt ta tc)) = true :=
  @C1_found_hash_matches cInit (("a7").data) 1 1 cInitFmt cInitVals
    (("1000000060 +0000").data) (("1000000060 +0000").data) (by decide) (by decide)

/-- C2 (amended): every candidate pair the enumerator produces satisfies
`lower_bound <= author_offset <= committer_offset <= upper_bound` (bounds =
the 64-bit products minutes * 60), and every `Found` result is rendered from
the 64-bit wrapping sums baseline + offset for such a pair; whenever those
two additions do not wrap — as for every timestamp a real repository
contains — the recovered offsets (returned timestamp minus baseline) are
exactly that pair and satisfy the bounds.  (The unamended claim fails for
parseable timestamps near `i64::MAX`, where the release build's addition
wraps: see the counterexample.) -/
theorem C2_offsets_amended {commit pre : Str} {minm maxm : Int} {fmt : Str}
    {vals : CommitValues} {cd ad : Str}
    (hfmt : commit_to_format commit = some (fmt, vals))
    (hrun : find_beautiful_git_hash commit pre minm maxm = .ok (some (cd, ad))) :
    (∀ p ∈ candPairs (i64mul minm 60) (i64mul maxm 60),
        i64mul minm 60 ≤ p.1 ∧ p.1 ≤ p.2 ∧ p.2 ≤ i64mul maxm 60) ∧
    ∃ a c : Int, i64mul minm 60 ≤ a ∧ a ≤ c ∧ c ≤ i64mul maxm 60 ∧
      ad = intRepr (i64add vals.author_date_timestamp a) ++ [' '] ++ vals.author_date_tz ∧
      cd = intRepr (i64add vals.committer_date_timestamp c) ++ [' '] ++ vals.committer_date_tz ∧
      (i64add vals.author_date_timestamp a = vals.author_date_timestamp + a →
       i64add vals.committer_date_timestamp c = vals.committer_date_timestamp + c →
       i64mul minm 60 ≤ i64add vals.author_date_timestamp a - vals.author_date_timestamp ∧
       i64add vals.author_date_timestamp a - vals.author_date_timestamp
         ≤ i64add vals.committer_date_timestamp c - vals.committer_date_timestamp ∧
       i64add vals.committer_date_timestamp c - vals.committer_date_timestamp
         ≤ i64mul maxm 60) := by
  constructor
  · rintro ⟨a, c⟩ hp
    unfold candPairs at hp
    simp only [List.mem_flatMap, List.mem_map] at hp
    obtain ⟨c2, hc2, a2, ha2, heq⟩ := hp
    obtain ⟨h1, h2⟩ := mem_intRange.mp hc2
    obtain ⟨h3, h4⟩ := mem_intRange.mp ha2
    cases heq
    exact ⟨h3, h4, h2⟩
  · obtain ⟨a, c, h1, h2, h3, _, _, hcd, had⟩ := find_found_inv hfmt hrun
    refine ⟨a, c, h1, h2, h3, had, hcd, fun hA hC => ?_⟩
    rw [hA, hC]
    exact ⟨by omega, by omega, by omega⟩

theorem C2_witness :
    (∀ p ∈ candPairs (i64mul 1 60) (i64mul 1 60),
        i64mul 1 60 ≤ p.1 ∧ p.1 ≤ p.2 ∧ p.2 ≤ i64mul 1 60) ∧
    ∃ a c : Int, i64mul 1 60 ≤ a ∧ a ≤ c ∧ c ≤ i64mul 1 60 ∧
      ("1000000060 +0000").data
        = intRepr (i64add cInitVals.author_date_timestamp a) ++ [' '] ++ cInitVals.author_date_tz ∧
      ("1000000060 +0000").data
        = intRepr (i64add cInitVals.committer_date_timestamp c) ++ [' '] ++ cInitVals.committer_date_tz ∧
      (i64add cInitVals.author_date_timestamp a = cInitVals.author_date_timestamp + a →
       i64add cInitVals.committer_date_timestamp c = cInitVals.committer_date_timestamp + c →
       i64mul 1 60 ≤ i64add cInitVals.author_date_timestamp a - cInitVals.author_date_timestamp ∧
       i64add cInitVals.author_date_timestamp a - cInitVals.author_date_timestamp
         ≤ i64add cInitVals.committer_date_timestamp c - cInitVals.committer_date_timestamp ∧
       i64add cInitVals.committer_date_timestamp c - cInitVals.committer_date_timestamp
         ≤ i64mul 1 60) :=
  @C2_offsets_amended cInit (("a7").data) 1 1 cInitFmt cInitVals
    (("1000000060 +0000").data) (("1000000060 +0000").data) (by decide) (by decide)

/-- C2 counterexample: `cBig` has the parseable baseline timestamp
`i64::MAX - 7`; with minute bounds `[1, 1]` the sole candidate adds 60 and
the `i64` sum wraps to `-9223372036854775756`, which is what the release
build renders into the `Found` strings — and the offset recovered as
"returned timestamp minus baseline" is about `-1.8e19`, far below the lower
bound 60, refuting `lower_bound <= author_offset`.  (A debug build panics
at the same addition.) -/
theorem C2_counterexample :
    cBigVals.author_date_timestamp = 9223372036854775800 ∧
    cBigVals.committer_date_timestamp = 9223372036854775800 ∧
    find_beautiful_git_hash cBig (("b").data) 1 1
      = .ok (some ((("-9223372036854775756 +0000").data),
                   (("-9223372036854775756 +0000").data))) ∧
    (("-9223372036854775756 +0000").data)
      = intRepr (-9223372036854775756) ++ [' '] ++ (("+0000").data) ∧
    ¬ (i64mul 1 60 ≤ (-9223372036854775756 : Int) - cBigVals.author_date_timestamp) :=
  ⟨by decide, by decide, by decide, by decide, by decide⟩

theorem intRange_split_zero {lo hi : Int} (h1 : lo ≤ 0) (h2 : 0 ≤ hi) :
    intRange lo hi = intRange lo (-1) ++ (0 :: intRange 1 hi) := by
  rw [@intRange_append lo (-1) hi (by omega) (by omega)]
  congr 1
  have hm : (-1 : Int) + 1 = 0 := by norm_num
  rw [hm, intRange_cons h2]
  norm_num

theorem rowResult_none_of_not_ok {fmt : Str} {vals : CommitValues} {pre : Str}
    {lo c : Int}
    (h : ∀ a : Int, lo ≤ a → a ≤ c →
      candidateOk fmt pre (i64add vals.author_date_timestamp a)
        (i64add vals.committer_date_timestamp c) = false) :
    rowResult fmt vals pre lo c = none := by
  unfold rowResult
  rw [List.findSome?_eq_none_iff]
  intro a hamem
  obtain ⟨ha1, ha2⟩ := mem_intRange.mp hamem
  unfold tryCandidate
  dsimp only
  rw [h a ha1 ha2]
  rfl

/-- C3 (amended): if the hash at offsets `(0,0)` matches the prefix and no
other candidate in the window matches, then every outcome the parallel
engine may surface is the `NoOp` result `ok none`; and independently, any
surfaced `Found` result was produced at an offset pair other than `(0,0)`.
(The unamended claim fails because a different matching candidate — earlier
in enumeration order, or in any racing committer row — can win before
`(0,0)` is tried.) -/
theorem C3_noop_amended {commit pre : Str} {minm maxm : Int} {fmt : Str}
    {vals : CommitValues}
    (hfmt : commit_to_format commit = some (fmt, vals)) :
    ((pre.all (fun ch => allowed_prefix_chars.contains ch) = true) →
     i64mul minm 60 ≤ 0 → 0 ≤ i64mul maxm 60 →
     candidateOk fmt pre (i64add vals.author_date_timestamp 0)
       (i64add vals.committer_date_timestamp 0) = true →
     (∀ a c : Int, i64mul minm 60 ≤ a → a ≤ c → c ≤ i64mul maxm 60 → ¬(a = 0 ∧ c = 0) →
        candidateOk fmt pre (i64add vals.author_date_timestamp a)
          (i64add vals.committer_date_timestamp c) = false) →
     ∀ out, find_possible commit pre minm maxm out → out = .ok none) ∧
    (∀ out cd ad, find_possible commit pre minm maxm out → out = .ok (some (cd, ad)) →
      ∃ a c : Int, ¬(a = 0 ∧ c = 0) ∧
        ad = intRepr (i64add vals.author_date_timestamp a) ++ [' '] ++ vals.author_date_tz ∧
        cd = intRepr (i64add vals.committer_date_timestamp c) ++ [' '] ++ vals.committer_date_tz) := by
  constructor
  · intro hv hlow hup hok hother out hout
    have h00 : tryCandidate fmt vals pre 0 0 = some none := by
      unfold tryCandidate
      dsimp only
      rw [hok]
      simp
    have hrow0 : rowResult fmt vals pre (i64mul minm 60) 0 = some none := by
      have hpre0 : (intRange (i64mul minm 60) (-1)).findSome?
          (fun a => tryCandidate fmt vals pre 0 a) = none := by
        rw [List.findSome?_eq_none_iff]
        intro a hamem
        obtain ⟨ha1, ha2⟩ := mem_intRange.mp hamem
        unfold tryCandidate
        dsimp only
        rw [hother a 0 ha1 (by omega) hup (by omega)]
        rfl
      unfold rowResult
      rw [@intRange_split_zero (i64mul minm 60) 0 hlow (by norm_num),
        @intRange_nil 1 0 (by norm_num), List.findSome?_append, hpre0]
      simp [List.findSome?_cons, h00]
    have hrowC : ∀ c : Int, i64mul minm 60 ≤ c → c ≤ i64mul maxm 60 → c ≠ 0 →
        rowResult fmt vals pre (i64mul minm 60) c = none := by
      intro c hc1 hc2 hcne
      exact rowResult_none_of_not_ok (fun a ha1 ha2 =>
        hother a c ha1 ha2 hc2 (fun hz => hcne hz.2))
    rcases hout with ⟨hvf, _⟩ | ⟨_, hfm, _⟩ | ⟨_, fmt2, vals2, hfmt2, hcase⟩
    · rw [hv] at hvf
      exact absurd hvf (by decide)
    · rw [hfmt] at hfm
      exact Option.noConfusion hfm
    · rw [hfmt] at hfmt2
      have hp := Option.some.inj hfmt2
      have hf2 : fmt2 = fmt := (congrArg Prod.fst hp).symm
      have hv2 : vals2 = vals := (congrArg Prod.snd hp).symm
      subst hf2
      subst hv2
      rcases hcase with ⟨c, hcmem, r, hrow, hout2⟩ | ⟨hall, _⟩
      · obtain ⟨hc1, hc2⟩ := mem_intRange.mp hcmem
        by_cases hc0 : c = 0
        · subst hc0
          rw [hrow0] at hrow
          rw [hout2, ← Option.some.inj hrow]
        · rw [hrowC c hc1 hc2 hc0] at hrow
          exact Option.noConfusion hrow
      · have h0mem : (0 : Int) ∈ intRange (i64mul minm 60) (i64mul maxm 60) :=
          mem_intRange.mpr ⟨hlow, hup⟩
        rw [hall 0 h0mem] at hrow0
        exact Option.noConfusion hrow0
  · intro out cd ad hout heq
    subst heq
    rcases hout with ⟨_, habs⟩ | ⟨_, _, habs⟩ | ⟨_, fmt2, vals2, hfmt2, hcase⟩
    · exact SearchOutcome.noConfusion habs
    · exact SearchOutcome.noConfusion habs
    · rw [hfmt] at hfmt2
      have hp := Option.some.inj hfmt2
      have hf2 : fmt2 = fmt := (congrArg Prod.fst hp).symm
      have hv2 : vals2 = vals := (congrArg Prod.snd hp).symm
      subst hf2
      subst hv2
      rcases hcase with ⟨c, hcmem, r, hrow, hout2⟩ | ⟨_, habs⟩
      · have hr : r = some (cd, ad) := by
          cases hout2
          rfl
        subst hr
        obtain ⟨a, _, _, hz, _, hcd, had⟩ := rowResult_found_inv hrow
        exact ⟨a, c, hz, had, hcd⟩
      · exact SearchOutcome.noConfusion habs

theorem C3_witness : find_beautiful_git_hash cInit (("ae").data) 0 0 = .ok none :=
  (@C3_noop_amended cInit (("ae").data) 0 0 cInitFmt cInitVals (by decide)).1
    (by decide) (by decide) (by decide) (by decide)
    (by
      intro a c h1 h2 h3 h4
      have h0 : i64mul 0 60 = (0 : Int) := by decide
      rw [h0] at h1 h3
      exact absurd ⟨by omega, by omega⟩ h4)
    (find_beautiful_git_hash cInit (("ae").data) 0 0)
    (find_is_possible cInit (("ae").data) 0 0)

/-- C3 counterexample: for `cX` with prefix `"3"` and minute bounds
`[-1, 0]` (a window that contains offset 0), the hash at offsets `(0,0)`
does start with the prefix, yet `Found` at offsets `(-60,-60)` is an
admissible outcome of the search — the schedule that lets the first
committer row win (the sequential order) surfaces it — so the result is not
the `NoOp` the claim requires. -/
theorem C3_counterexample :
    i64mul (-1) 60 ≤ 0 ∧ (0 : Int) ≤ i64mul 0 60 ∧
    candidateOk cXFmt (("3").data) (i64add cXVals.author_date_timestamp 0)
      (i64add cXVals.committer_date_timestamp 0) = true ∧
    find_possible cX (("3").data) (-1) 0
      (.ok (some ((("999999940 +0000").data), (("999999940 +0000").data)))) ∧
    SearchOutcome.ok (some ((("999999940 +0000").data), (("999999940 +0000").data)))
      ≠ .ok none := by
  refine ⟨by decide, by decide, by decide, ?_, by simp⟩
  refine Or.inr (Or.inr ⟨by decide, cXFmt, cXVals, by decide, Or.inl
    ⟨-60, mem_intRange.mpr ⟨by decide, by decide⟩,
     some ((("999999940 +0000").data), (("999999940 +0000").data)), by decide, rfl⟩⟩)

theorem takeWhile_eq_self_of_all {α : Type} (p : α → Bool) (l : List α)
    (h : ∀ x ∈ l, p x = true) : l.takeWhile p = l := by
  induction l with
  | nil => rfl
  | cons x rest ih =>
    rw [List.takeWhile_cons, if_pos (h x (List.mem_cons_self x rest))]
    rw [ih (fun y hy => h y (List.mem_cons_of_mem x hy))]

theorem candPairs_length_eq_row_sum (lo hi : Int) :
    (candPairs lo hi).length = ((intRange lo hi).map (rowCount lo)).sum := by
  unfold candPairs
  rw [List.length_flatMap]
  congr 1
  apply List.map_congr_left
  intro c hc
  simp only [Function.comp_apply, List.length_map, intRange_length, rowCount]
  omega

/-- C7 (amended): the progress counter accumulates exactly the candidate
counts of the rows that complete without producing a result — every such row
exactly once, in particular all rows on an exhausted search (totalling the
full candidate count) — while the row that returns the match does not
advance the counter at all. -/
theorem C7_progress_amended (fmt : Str) (vals : CommitValues) (pre : Str) (lo hi : Int) :
    (searchRows fmt vals pre lo hi).2
      = (((intRange lo hi).takeWhile
          (fun c => (rowResult fmt vals pre lo c).isNone)).map (rowCount lo)).sum ∧
    ((searchRows fmt vals pre lo hi).1 = none →
      (searchRows fmt vals pre lo hi).2 = (candPairs lo hi).length) := by
  constructor
  · exact searchBarAux_snd _ _ _
  · intro hnone
    have hall : ∀ c ∈ intRange lo hi, rowResult fmt vals pre lo c = none := by
      rw [searchRows, searchBarAux_fst] at hnone
      exact List.findSome?_eq_none_iff.mp hnone
    have htw : (intRange lo hi).takeWhile (fun c => (rowResult fmt vals pre lo c).isNone)
        = intRange lo hi :=
      takeWhile_eq_self_of_all _ _ (fun c hc => by rw [hall c hc]; rfl)
    rw [searchRows, searchBarAux_snd, htw, candPairs_length_eq_row_sum]

theorem C7_witness :
    (searchRows cInitFmt cInitVals (("be").data) 0 0).2 = (candPairs 0 0).length :=
  (C7_progress_amended cInitFmt cInitVals (("be").data) 0 0).2 (by decide)

/-- C7 counterexample: in the concrete run on `cX` with prefix `"3"` and
second bounds `[-60, 0]`, the match is found in the very first committer row
(candidate count 1), and the progress counter ends at 0 — the matching row
never advances it, contradicting the claim that the advance happens for the
row containing the match. -/
theorem C7_counterexample :
    searchRows cXFmt cXVals (("3").data) (-60) 0
      = (some (some ((("999999940 +0000").data), (("999999940 +0000").data))), 0) ∧
    rowCount (-60) (-60) = 1 ∧ (0 : Nat) ≠ 1 :=
  ⟨by decide, by decide, by decide⟩

/-- C8 (amended): `min > max` is rejected by the program entry point (for
every prefix and commit text, before the engine can run); the engine itself
performs no range validation — invoked directly with `min > max` whose
endpoints are in the CLI's `i32` range (the only values `main` can pass,
since the arguments are parsed as `i32`), it enumerates no candidate and
reports exhaustion.  (For `i64` minute arguments beyond about 1.5e17 the
minute-to-second multiplication itself wraps, so the `i32` bound is part of
the statement.) -/
theorem C8_range_amended (commit pre : Str) (minA maxA : Int) (h : minA > maxA) :
    run_main commit pre minA maxA = .err rangeMsg ∧
    (-2147483648 ≤ minA → minA ≤ 2147483647 →
     -2147483648 ≤ maxA → maxA ≤ 2147483647 →
     pre.all (fun c => allowed_prefix_chars.contains c) = true →
     ∀ fmt vals, commit_to_format commit = some (fmt, vals) →
     find_beautiful_git_hash commit pre minA maxA = .err exhaustedMsg) := by
  constructor
  · unfold run_main
    rw [if_pos h]
  · intro ha hb hc hd hv fmt vals hfmt
    have e1 : i64mul minA 60 = minA * 60 := i64wrap_eq (by omega) (by omega)
    have e2 : i64mul maxA 60 = maxA * 60 := i64wrap_eq (by omega) (by omega)
    have hs : (searchRows fmt vals pre (i64mul minA 60) (i64mul maxA 60)).1 = none := by
      rw [searchRows, e1, e2, intRange_nil (by omega)]
      rfl
    unfold find_beautiful_git_hash
    rw [if_pos hv, hfmt]
    have hgoal : (match (searchRows fmt vals pre (i64mul minA 60) (i64mul maxA 60)).1 with
        | some r => SearchOutcome.ok r
        | none => SearchOutcome.err exhaustedMsg) = SearchOutcome.err exhaustedMsg := by
      rw [hs]
    exact hgoal

theorem C8_witness :
    run_main cInit (("a").data) 1 0 = .err rangeMsg ∧
    find_beautiful_git_hash cInit (("a").data) 1 0 = .err exhaustedMsg := by
  have h := C8_range_amended cInit (("a").data) 1 0 (by decide)
  exact ⟨h.1, h.2 (by decide) (by decide) (by decide) (by decide) (by decide)
    cInitFmt cInitVals (by decide)⟩

/-- C8 counterexample: the search engine, called directly with
`min_minutes = 1 > 0 = max_minutes`, reports the exhaustion error ("Unable
to find beautiful hash!"), not the range error — the range check lives only
in the CLI entry point. -/
theorem C8_counterexample :
    find_beautiful_git_hash cInit (("a").data) 1 0 = .err exhaustedMsg ∧
    exhaustedMsg ≠ rangeMsg :=
  ⟨by decide, by decide⟩

/-- C4 counterexample: the empty prefix — which the claim says must fail
with `InvalidPrefix` — passes validation (a vacuous `all`) and the search
proceeds, here returning the `NoOp` outcome. -/
theorem C4_counterexample :
    find_beautiful_git_hash cInit [] 0 0 = .ok none ∧
    (SearchOutcome.ok none ≠ SearchOutcome.err invalidPrefixMsg) :=
  ⟨by decide, by decide⟩

/-- C4 (amended): the engine fails with the `InvalidPrefix` error if and
only if the prefix contains a character outside `0-9a-f`; the empty prefix
passes validation and the search proceeds. -/
theorem C4_validation_amended (commit pre : Str) (minm maxm : Int) :
    find_beautiful_git_hash commit pre minm maxm = .err invalidPrefixMsg
      ↔ pre.all (fun c => allowed_prefix_chars.contains c) = false := by
  unfold find_beautiful_git_hash
  by_cases hv : pre.all (fun c => allowed_prefix_chars.contains c)
  · rw [if_pos hv]
    constructor
    · intro h
      exfalso
      cases hfmt : commit_to_format commit with
      | none =>
        rw [hfmt] at h
        have h2 : panicMsg = invalidPrefixMsg := by cases h
        exact absurd h2 (by decide)
      | some p =>
        obtain ⟨fmt, vals⟩ := p
        rw [hfmt] at h
        have h3 : (match (searchRows fmt vals pre (i64mul minm 60) (i64mul maxm 60)).1 with
            | some r => SearchOutcome.ok r
            | none => SearchOutcome.err exhaustedMsg)
            = SearchOutcome.err invalidPrefixMsg := h
        cases hs : (searchRows fmt vals pre (i64mul minm 60) (i64mul maxm 60)).1 with
        | none =>
          rw [hs] at h3
          have h4 : exhaustedMsg = invalidPrefixMsg := by cases h3
          exact absurd h4 (by decide)
        | some r =>
          rw [hs] at h3
          exact SearchOutcome.noConfusion h3
    · intro h
      rw [hv] at h
      exact absurd h (by decide)
  · rw [if_neg hv]
    rw [Bool.not_eq_true] at hv
    exact ⟨fun _ => hv, fun _ => rfl⟩

/-- C9 counterexample: for a 16-hex-digit prefix the 64-bit counter
`16^L` wraps to 0 (in a debug build the `pow` panics instead), so the
reported ratio denominator is not `16^16` as the claim states for every
prefix length. -/
theorem C9_counterexample :
    hash_count (("0000000000000000").data) = 0 ∧ (0 : Nat) ≠ 16 ^ 16 :=
  ⟨by decide, by decide⟩

/-- C9 (amended): the enumerator's candidate count is the triangular number
`(bound+1)(bound+2)/2` (stated multiplicatively), and for windows small
enough that the `i64` count arithmetic cannot overflow (span at most 5.0e7
minutes — about 96 years — with endpoints in the CLI's `i32` range) the
engine's reported `possibilities` equals that count; for prefixes of length
at most 15 (so `16^L` fits in the 64-bit counter) the reported probability
is `count / 16^L`, modelled exactly over `ℚ` (the code rounds it to an
`f64` for display only).  Beyond those limits the `i64`/`u64` arithmetic
wraps in release and panics in debug: see the counterexample. -/
theorem C9_probability_amended (minm maxm : Int) (pre : Str)
    (h1 : minm ≤ maxm) (hlo : -2147483648 ≤ minm) (hhi : maxm ≤ 2147483647)
    (hwin : maxm - minm ≤ 50000000) (h2 : pre.length ≤ 15) :
    (∀ lo hi : Int, lo ≤ hi →
      ((candPairs lo hi).length : Int) * 2 = (hi - lo + 1) * (hi - lo + 2)) ∧
    ((candPairs (i64mul minm 60) (i64mul maxm 60)).length : Int)
      = possibilities minm maxm ∧
    hash_count pre = 16 ^ pre.length ∧
    probabilityRat minm maxm pre
      = (possibilities minm maxm : ℚ) / ((16 : ℚ) ^ pre.length) := by
  have hcount : hash_count pre = 16 ^ pre.length := by
    unfold hash_count
    apply Nat.mod_eq_of_lt
    calc 16 ^ pre.length ≤ 16 ^ 15 := Nat.pow_le_pow_right (by norm_num) h2
    _ < 18446744073709551616 := by norm_num
  have e_lo : i64mul minm 60 = minm * 60 := i64wrap_eq (by omega) (by omega)
  have e_hi : i64mul maxm 60 = maxm * 60 := i64wrap_eq (by omega) (by omega)
  have e_b : i64sub (i64mul maxm 60) (i64mul minm 60) = maxm * 60 - minm * 60 := by
    rw [e_lo, e_hi]
    exact i64wrap_eq (by omega) (by omega)
  have e_b1 : i64add (maxm * 60 - minm * 60) 1 = maxm * 60 - minm * 60 + 1 :=
    i64wrap_eq (by omega) (by omega)
  have e_b2 : i64add (maxm * 60 - minm * 60) 2 = maxm * 60 - minm * 60 + 2 :=
    i64wrap_eq (by omega) (by omega)
  have hp0 : 0 ≤ (maxm * 60 - minm * 60 + 1) * (maxm * 60 - minm * 60 + 2) :=
    mul_nonneg (by omega) (by omega)
  have hp1 : (maxm * 60 - minm * 60 + 1) * (maxm * 60 - minm * 60 + 2)
      ≤ 9223372036854775807 := by nlinarith
  have e_p : i64mul (maxm * 60 - minm * 60 + 1) (maxm * 60 - minm * 60 + 2)
      = (maxm * 60 - minm * 60 + 1) * (maxm * 60 - minm * 60 + 2) :=
    i64wrap_eq (by omega) hp1
  have hposs : possibilities minm maxm
      = Int.tdiv ((maxm * 60 - minm * 60 + 1) * (maxm * 60 - minm * 60 + 2)) 2 := by
    unfold possibilities i64div
    dsimp only
    rw [e_b, e_b1, e_b2, e_p]
  refine ⟨fun lo hi h => candPairs_length h, ?_, hcount, ?_⟩
  · rw [e_lo, e_hi, hposs]
    have hc := candPairs_length (show (minm * 60 : Int) ≤ maxm * 60 by omega)
    rw [← hc]
    exact (Int.mul_tdiv_cancel _ (by norm_num)).symm
  · unfold probabilityRat
    rw [hcount]
    push_cast
    rfl

theorem C9_witness :
    ((candPairs 0 10).length : Int) * 2 = (10 - 0 + 1) * (10 - 0 + 2) ∧
    ((candPairs (i64mul 0 60) (i64mul 0 60)).length : Int) = possibilities 0 0 ∧
    hash_count (("aaaaaa").data) = 16 ^ (("aaaaaa").data).length ∧
    probabilityRat 0 0 (("aaaaaa").data)
      = (possibilities 0 0 : ℚ) / ((16 : ℚ) ^ (("aaaaaa").data).length) := by
  have h := C9_probability_amended 0 0 (("aaaaaa").data) (by decide) (by decide)
    (by decide) (by decide) (by decide)
  exact ⟨h.1 0 10 (by decide), h.2.1, h.2.2.1, h.2.2.2⟩

theorem strBytes_append (a b : Str) : strBytes (a ++ b) = strBytes a ++ strBytes b :=
  List.flatMap_append a b _

theorem sha1_shape (msg : List Nat) : ∃ a b c d e, sha1 msg = [a, b, c, d, e] := by
  unfold sha1
  obtain ⟨a, b, c, d, e⟩ :=
    (chunks64 (sha1Pad msg)).foldl sha1Block
      (1732584193, 4023233417, 2562383102, 271733878, 3285377520)
  exact ⟨a, b, c, d, e, rfl⟩

theorem hex8_length (v : Nat) : (hex8 v).length = 8 := by simp [hex8]

theorem hex8_mem {ch : Char} {v : Nat} (h : ch ∈ hex8 v) : ch ∈ allowed_prefix_chars := by
  simp only [hex8, List.mem_map, List.mem_range] at h
  obtain ⟨i, hi, rfl⟩ := h
  have hm : v / 16 ^ (7 - i) % 16 < 16 := Nat.mod_lt _ (by norm_num)
  generalize (v / 16 ^ (7 - i) % 16) = m at hm ⊢
  interval_cases m <;> decide

theorem sha1Hex_length (msg : List Nat) : (sha1Hex msg).length = 40 := by
  obtain ⟨a, b, c, d, e, h⟩ := sha1_shape msg
  unfold sha1Hex
  rw [h]
  simp [hex8_length]

theorem sha1Hex_mem (msg : List Nat) : ∀ ch ∈ sha1Hex msg, ch ∈ allowed_prefix_chars := by
  intro ch hch
  unfold sha1Hex at hch
  rw [List.mem_flatMap] at hch
  obtain ⟨v, _, hv⟩ := hch
  exact hex8_mem hv

/-- C5: the hash function is pure (a Lean function), hashes exactly the
bytes `"commit " ++ decimal byte length ++ NUL ++ text` (the spec-worded
`gitObjectBytes`), and returns the 160-bit SHA-1 digest hex-encoded in
lowercase: 40 characters, all in `0-9a-f`. -/
theorem C5_hash_function (t : Str) :
    git_commit_hash t = sha1Hex (gitObjectBytes t) ∧
    (git_commit_hash t).length = 40 ∧
    ∀ ch ∈ git_commit_hash t, ch ∈ allowed_prefix_chars := by
  have heq : git_commit_hash t = sha1Hex (gitObjectBytes t) := by
    unfold git_commit_hash gitObjectBytes
    dsimp only
    congr 1
    rw [strBytes_append, strBytes_append, strBytes_append,
      show strBytes ([Char.ofNat 0]) = ([0] : List Nat) from by decide]
  refine ⟨heq, ?_, ?_⟩
  · rw [heq]
    exact sha1Hex_length _
  · rw [heq]
    exact sha1Hex_mem _

/-- C6 counterexample: a commit whose message line `hello  world` (two
spaces, no `author`/`committer` header involved) is rewritten by the
template builder to `hello world` — the non-header line is not copied
byte-for-byte. -/
theorem C6_counterexample :
    commit_to_format cWs = some ((("tree 123\n\nhello world\n").data), initVals) ∧
    (("tree 123\n\nhello world\n").data) ≠ cWs :=
  ⟨by decide, by decide⟩

/-- C6 (amended): a line whose first token is neither `author` nor
`committer` keeps its tokens and their order but is rejoined with single
spaces (whitespace runs normalized); consequently a line already in
single-space form is copied unchanged. -/
theorem C6_frame_amended (line : Str) (vals : CommitValues)
    (h : ∀ w, (splitWhitespace line).head? = some w →
       w ≠ ("author").data ∧ w ≠ ("committer").data) :
    commit_line_to_format line vals
      = some (joinSep ([' ']) (splitWhitespace line), vals) ∧
    (joinSep ([' ']) (splitWhitespace line) = line →
      commit_line_to_format line vals = some (line, vals)) := by
  have hmain : commit_line_to_format line vals
      = some (joinSep ([' ']) (splitWhitespace line), vals) := by
    unfold commit_line_to_format
    dsimp only
    cases hw : (splitWhitespace line).head? with
    | none => rfl
    | some w =>
      obtain ⟨h1, h2⟩ := h w hw
      dsimp only
      rw [if_neg (show ¬ w = ['a', 'u', 't', 'h', 'o', 'r'] from h1),
        if_neg (show ¬ w = ['c', 'o', 'm', 'm', 'i', 't', 't', 'e', 'r'] from h2)]
  refine ⟨hmain, fun he => ?_⟩
  rw [he] at hmain
  exact hmain

theorem C6_witness :
    commit_line_to_format (("hello world").data) initVals
      = some (joinSep ([' ']) (splitWhitespace (("hello world").data)), initVals) ∧
    (joinSep ([' ']) (splitWhitespace (("hello world").data)) = ("hello world").data →
      commit_line_to_format (("hello world").data) initVals
        = some ((("hello world").data), initVals)) := by
  apply C6_frame_amended
  intro w hw
  have h0 : (splitWhitespace (("hello world").data)).head? = some (("hello").data) := by decide
  rw [h0] at hw
  cases hw
  exact ⟨by decide, by decide⟩

theorem splitWsAux_chars (s : Str) : ∀ (acc : Str),
    (∀ ch ∈ acc, isRustWhitespace ch = false) →
    ∀ w ∈ splitWsAux s acc, ∀ ch ∈ w, isRustWhitespace ch = false := by
  induction s with
  | nil =>
    intro acc hacc w hw ch hch
    unfold splitWsAux at hw
    split at hw
    · exact absurd hw (List.not_mem_nil w)
    · rw [List.mem_singleton] at hw
      subst hw
      exact hacc ch (List.mem_reverse.mp hch)
  | cons c rest ih =>
    intro acc hacc w hw ch hch
    unfold splitWsAux at hw
    split at hw
    · rename_i hws
      split at hw
      · exact ih [] (by simp) w hw ch hch
      · rcases List.mem_cons.mp hw with rfl | hw2
        · exact hacc ch (List.mem_reverse.mp hch)
        · exact ih [] (by simp) w hw2 ch hch
    · rename_i hws
      refine ih (c :: acc) ?_ w hw ch hch
      intro ch2 hch2
      rcases List.mem_cons.mp hch2 with rfl | hm
      · rw [Bool.not_eq_true] at hws
        exact hws
      · exact hacc ch2 hm

theorem splitWhitespace_chars (s : Str) :
    ∀ w ∈ splitWhitespace s, ∀ ch ∈ w, isRustWhitespace ch = false :=
  splitWsAux_chars s [] (by simp)

theorem joinSep_mem {sep : Str} {parts : List Str} {ch : Char}
    (h : ch ∈ joinSep sep parts) : (∃ w ∈ parts, ch ∈ w) ∨ ch ∈ sep := by
  induction parts with
  | nil => exact absurd h (List.not_mem_nil ch)
  | cons x rest ih =>
    cases rest with
    | nil => exact Or.inl ⟨x, List.mem_singleton.mpr rfl, h⟩
    | cons y rest2 =>
      have hx : joinSep sep (x :: y :: rest2) = x ++ sep ++ joinSep sep (y :: rest2) := rfl
      rw [hx] at h
      rcases List.mem_append.mp h with h2 | h3
      · rcases List.mem_append.mp h2 with h4 | h5
        · exact Or.inl ⟨x, List.mem_cons_self x _, h4⟩
        · exact Or.inr h5
      · rcases ih h3 with ⟨w, hw, hc⟩ | hs
        · exact Or.inl ⟨w, List.mem_cons_of_mem x hw, hc⟩
        · exact Or.inr hs

theorem clf_out_shape {line : Str} {vals : CommitValues} {out : Str} {vals2 : CommitValues}
    (h : commit_line_to_format line vals = some (out, vals2)) :
    ∃ W : List Str,
      (∀ w ∈ W, w ∈ splitWhitespace line ∨ w = authorPh ∨ w = committerPh) ∧
      out = joinSep ([' ']) W := by
  unfold commit_line_to_format at h
  dsimp only at h
  cases hw : (splitWhitespace line).head? with
  | none =>
    rw [hw] at h
    refine ⟨splitWhitespace line, fun w hw2 => Or.inl hw2, ?_⟩
    exact (congrArg Prod.fst (Option.some.inj h)).symm
  | some w =>
    rw [hw] at h
    dsimp only at h
    split at h
    · split at h
      · exact Option.noConfusion h
      · refine ⟨(splitWhitespace line).set ((splitWhitespace line).length - 2) authorPh,
          fun w2 hw2 => ?_, ?_⟩
        · rcases List.mem_or_eq_of_mem_set hw2 with hm | rfl
          · exact Or.inl hm
          · exact Or.inr (Or.inl rfl)
        · exact (congrArg Prod.fst (Option.some.inj h)).symm
    · split at h
      · split at h
        · exact Option.noConfusion h
        · refine ⟨(splitWhitespace line).set ((splitWhitespace line).length - 2) committerPh,
            fun w2 hw2 => ?_, ?_⟩
          · rcases List.mem_or_eq_of_mem_set hw2 with hm | rfl
            · exact Or.inl hm
            · exact Or.inr (Or.inr rfl)
          · exact (congrArg Prod.fst (Option.some.inj h)).symm
      · refine ⟨splitWhitespace line, fun w2 hw2 => Or.inl hw2, ?_⟩
        exact (congrArg Prod.fst (Option.some.inj h)).symm

theorem clf_no_nl {line : Str} {vals : CommitValues} {out : Str} {vals2 : CommitValues}
    (h : commit_line_to_format line vals = some (out, vals2)) : out.count '\n' = 0 := by
  rw [List.count_eq_zero]
  intro hmem
  obtain ⟨W, hW, rfl⟩ := clf_out_shape h
  rcases joinSep_mem hmem with ⟨w, hwW, hch⟩ | hsep
  · rcases hW w hwW with hws | rfl | rfl
    · have hfalse := splitWhitespace_chars line w hws '\n' hch
      exact absurd hfalse (by decide)
    · exact absurd hch (by decide)
    · exact absurd hch (by decide)
  · exact absurd hsep (by decide)

theorem clf_empty (vals : CommitValues) :
    commit_line_to_format [] vals = some ([], vals) := rfl

theorem lines_format_props :
    ∀ (ls : List Str) (v : CommitValues) (ls2 : List Str) (v2 : CommitValues),
    commit_lines_to_format ls v = some (ls2, v2) →
    ls2.length = ls.length ∧ (∀ p ∈ ls2, p.count '\n' = 0) ∧
    (ls.getLast? = some [] → ls2.getLast? = some []) := by
  intro ls
  induction ls with
  | nil =>
    intro v ls2 v2 h
    have h2 : ([] : List Str) = ls2 := congrArg Prod.fst (Option.some.inj h)
    subst h2
    exact ⟨rfl, by simp, fun habs => Option.noConfusion habs⟩
  | cons l rest ih =>
    intro v ls2 v2 h
    unfold commit_lines_to_format at h
    cases hl : commit_line_to_format l v with
    | none => rw [hl] at h; exact Option.noConfusion h
    | some p =>
      obtain ⟨l2, vb⟩ := p
      rw [hl] at h
      dsimp only at h
      cases hrest : commit_lines_to_format rest vb with
      | none => rw [hrest] at h; exact Option.noConfusion h
      | some q =>
        obtain ⟨ls3, v3⟩ := q
        rw [hrest] at h
        dsimp only at h
        have hls2 : l2 :: ls3 = ls2 := congrArg Prod.fst (Option.some.inj h)
        subst hls2
        obtain ⟨ihlen, ihnl, ihlast⟩ := ih vb ls3 v3 hrest
        refine ⟨by simp [ihlen], ?_, ?_⟩
        · intro p hp
          rcases List.mem_cons.mp hp with rfl | hp2
          · exact clf_no_nl hl
          · exact ihnl p hp2
        · intro hlast
          cases rest with
          | nil =>
            have hl0 : l = [] := by
              have : (l :: ([] : List Str)).getLast? = some l := rfl
              rw [this] at hlast
              exact Option.some.inj hlast
            subst hl0
            have hls3 : ls3 = [] := List.length_eq_zero.mp (by simp [ihlen])
            subst hls3
            have hl2 : l2 = [] := by
              rw [clf_empty v] at hl
              exact (congrArg Prod.fst (Option.some.inj hl)).symm
            subst hl2
            rfl
          | cons r rest2 =>
            rw [List.getLast?_cons_cons] at hlast
            have hlast3 := ihlast hlast
            have hls3ne : ls3 ≠ [] := by
              intro habs
              rw [habs] at ihlen
              simp at ihlen
            obtain ⟨s, ss, rfl⟩ := List.exists_cons_of_ne_nil hls3ne
            rw [List.getLast?_cons_cons]
            exact hlast3

theorem splitOnNl_ne_nil (s : Str) : splitOnNl s ≠ [] := by
  induction s with
  | nil => simp [splitOnNl]
  | cons c rest ih =>
    unfold splitOnNl
    cases h : splitOnNl rest with
    | nil => simp
    | cons l ls =>
      dsimp only
      split <;> simp

theorem splitOnNl_length (s : Str) : (splitOnNl s).length = s.count '\n' + 1 := by
  induction s with
  | nil => simp [splitOnNl]
  | cons c rest ih =>
    unfold splitOnNl
    cases hsp : splitOnNl rest with
    | nil => exact absurd hsp (splitOnNl_ne_nil rest)
    | cons l ls =>
      rw [hsp] at ih
      dsimp only
      by_cases hc : c = '\n'
      · subst hc
        rw [if_pos rfl]
        simp only [List.count_cons, List.length_cons]
        simp only [List.length_cons] at ih
        simp [ih]
      · rw [if_neg hc]
        simp only [List.count_cons, List.length_cons]
        simp only [List.length_cons] at ih
        have hbeq : (c == '\n') = false := by
          rw [beq_eq_false_iff_ne]
          exact hc
        simp [ih, hbeq]

theorem splitOnNl_last (s : Str) (h : s.getLast? = some '\n') :
    (splitOnNl s).getLast? = some ([] : Str) ∧ 2 ≤ (splitOnNl s).length := by
  induction s with
  | nil => exact absurd h (by simp)
  | cons c rest ih =>
    cases rest with
    | nil =>
      have hc : c = '\n' := by
        have h1 : ([c] : Str).getLast? = some c := rfl
        rw [h1] at h
        exact Option.some.inj h
      subst hc
      exact ⟨by decide, by decide⟩
    | cons d rest2 =>
      rw [List.getLast?_cons_cons] at h
      obtain ⟨ihL, ihlen⟩ := ih h
      cases hsp : splitOnNl (d :: rest2) with
      | nil => exact absurd hsp (splitOnNl_ne_nil _)
      | cons l ls =>
        rw [hsp] at ihL ihlen
        have hlsne : ls ≠ [] := by
          intro habs
          rw [habs] at ihlen
          simp at ihlen
        obtain ⟨m, ms, rfl⟩ := List.exists_cons_of_ne_nil hlsne
        have hstep : splitOnNl (c :: d :: rest2)
            = if c = '\n' then [] :: l :: m :: ms else (c :: l) :: m :: ms := by
          unfold splitOnNl
          rw [hsp]
        by_cases hc : c = '\n'
        · rw [hstep, if_pos hc]
          constructor
          · rw [List.getLast?_cons_cons]
            exact ihL
          · simp
        · rw [hstep, if_neg hc]
          constructor
          · rw [List.getLast?_cons_cons] at ihL ⊢
            exact ihL
          · simp

theorem joinSep_nl_count (parts : List Str) (hne : parts ≠ [])
    (hall : ∀ p ∈ parts, p.count '\n' = 0) :
    (joinSep (['\n']) parts).count '\n' = parts.length - 1 := by
  induction parts with
  | nil => exact absurd rfl hne
  | cons x rest ih =>
    cases rest with
    | nil =>
      have h1 : joinSep (['\n']) [x] = x := rfl
      rw [h1, hall x (List.mem_singleton.mpr rfl)]
      rfl
    | cons y rest2 =>
      have h1 : joinSep (['\n']) (x :: y :: rest2)
          = x ++ ['\n'] ++ joinSep (['\n']) (y :: rest2) := rfl
      rw [h1, List.count_append, List.count_append,
        hall x (List.mem_cons_self x _),
        ih (by simp) (fun p hp => hall p (List.mem_cons_of_mem x hp))]
      simp
      omega

theorem joinSep_last_nl : ∀ (parts : List Str),
    parts.getLast? = some ([] : Str) → 2 ≤ parts.length →
    (joinSep (['\n']) parts).getLast? = some '\n' := by
  intro parts
  induction parts with
  | nil => intro h _; exact absurd h (by simp)
  | cons x rest ih =>
    intro hlast hlen
    cases rest with
    | nil => simp at hlen
    | cons y rest2 =>
      rw [List.getLast?_cons_cons] at hlast
      cases rest2 with
      | nil =>
        have hy : y = [] := by
          have h1 : ([y] : List Str).getLast? = some y := rfl
          rw [h1] at hlast
          exact Option.some.inj hlast
        subst hy
        have h2 : joinSep (['\n']) [x, []] = x ++ ['\n'] ++ ([] : Str) := rfl
        rw [h2, List.append_nil]
        exact List.getLast?_concat x
      | cons z rest3 =>
        have hstep : joinSep (['\n']) (x :: y :: z :: rest3)
            = x ++ ['\n'] ++ joinSep (['\n']) (y :: z :: rest3) := rfl
        rw [hstep]
        have ihres := ih hlast (by simp)
        rw [List.append_assoc, List.getLast?_append, List.getLast?_append, ihres]
        rfl

/-- C10: the template has exactly as many newline characters as the input
commit text, and a trailing newline in the input yields a trailing newline
in the template — the line structure survives the per-line rewriting. -/
theorem C10_newline_preservation {commit fmt : Str} {vals : CommitValues}
    (h : commit_to_format commit = some (fmt, vals)) :
    fmt.count '\n' = commit.count '\n' ∧
    (commit.getLast? = some '\n' → fmt.getLast? = some '\n') := by
  unfold commit_to_format at h
  cases hl : commit_lines_to_format (splitOnNl commit) initVals with
  | none => rw [hl] at h; exact Option.noConfusion h
  | some p =>
    obtain ⟨ls2, v2⟩ := p
    rw [hl] at h
    dsimp only at h
    have hfmt : joinSep (['\n']) ls2 = fmt := congrArg Prod.fst (Option.some.inj h)
    obtain ⟨hlen, hnl, hlast⟩ := lines_format_props _ _ _ _ hl
    have hne : ls2 ≠ [] := by
      intro habs
      rw [habs] at hlen
      exact splitOnNl_ne_nil commit (List.length_eq_zero.mp hlen.symm)
    constructor
    · rw [← hfmt, joinSep_nl_count ls2 hne hnl, hlen, splitOnNl_length]
      simp
    · intro hend
      obtain ⟨hL, hlen2⟩ := splitOnNl_last commit hend
      rw [← hfmt]
      exact joinSep_last_nl ls2 (hlast hL) (by rw [hlen]; exact hlen2)

theorem C10_witness :
    cInitFmt.count '\n' = cInit.count '\n' ∧
    (cInit.getLast? = some '\n' → cInitFmt.getLast? = some '\n') :=
  @C10_newline_preservation cInit cInitFmt cInitVals (by decide)
